import Mathlib

/-!
# Verification of the geotime crate's wide timestamp and order-preserving codec

This file shallowly embeds the geotime crate (src/lib.rs and src/ser.rs): a
128-bit signed millisecond timestamp together with four lexically sortable
textual encodings (hex, base-32-hex, geohash-like, 64-symbol), and settles the
specification's claims about it.

Machine integers are modelled as Int (for i128/i64/i32 values, with the range
made explicit in hypotheses) and Nat (for unsigned bit patterns and bytes);
two's-complement bit patterns are made explicit through toU128/ofU128.
Fallible operations return Option or small result inductives; the one place
the Rust code can panic (the Visitor's copy_from_slice of bytes[0..16]) is a
distinct DecodeResult.panic outcome.
-/

set_option maxRecDepth 100000

/-- Range of a 128-bit signed integer (i128). -/
def i128Range (n : Int) : Prop := -(2 ^ 127) ≤ n ∧ n < 2 ^ 127

/-- Range of a 64-bit signed integer (i64). -/
def i64Range (n : Int) : Prop := -(2 ^ 63) ≤ n ∧ n < 2 ^ 63

/-- Range of a 32-bit signed integer (i32). -/
def i32Range (n : Int) : Prop := -(2 ^ 31) ≤ n ∧ n < 2 ^ 31

instance (n : Int) : Decidable (i128Range n) := by unfold i128Range; infer_instance

instance (n : Int) : Decidable (i64Range n) := by unfold i64Range; infer_instance

instance (n : Int) : Decidable (i32Range n) := by unfold i32Range; infer_instance

/-- Bit pattern of an i128 value, read as an unsigned 128-bit integer
(what `v.to_be_bytes()` serializes, taken as one big-endian number). -/
def toU128 (n : Int) : Nat := (n % (2:Int) ^ 128).toNat

/-- Reinterpret an unsigned 128-bit pattern as a signed i128 value
(what `i128::from_be_bytes` does, taken as one big-endian number). -/
def ofU128 (u : Nat) : Int := if u < 2 ^ 127 then (u : Int) else (u : Int) - 2 ^ 128

/-- The sign-flip transform `lexify` from src/ser.rs: `n ^ (1 << 127)` on i128.
The literal `1 << 127` has the sign bit set and nothing else, so the xor acts
on the two's-complement bit pattern of `n`. -/
def lexify (n : Int) : Int := ofU128 (toU128 n ^^^ 2 ^ 127)

/-- The inverse transform `delexify` from src/ser.rs, textually identical to
`lexify` because xor with a fixed mask is self-inverse. -/
def delexify (n : Int) : Int := ofU128 (toU128 n ^^^ 2 ^ 127)

lemma toU128_lt (n : Int) : toU128 n < 2 ^ 128 := by
  unfold toU128
  have h1 : (0:Int) < 2 ^ 128 := by positivity
  have h2 := Int.emod_nonneg n (ne_of_gt h1)
  have h3 := Int.emod_lt_of_pos n h1
  omega

lemma ofU128_toU128 {n : Int} (h : i128Range n) : ofU128 (toU128 n) = n := by
  unfold ofU128 toU128
  obtain ⟨h1, h2⟩ := h
  have h3 : (0:Int) < 2 ^ 128 := by positivity
  have h4 := Int.emod_nonneg n (ne_of_gt h3)
  have h5 := Int.emod_lt_of_pos n h3
  have h6 : n % 2 ^ 128 = n ∨ n % 2 ^ 128 = n + 2 ^ 128 := by omega
  split <;> omega

lemma toU128_ofU128 {u : Nat} (h : u < 2 ^ 128) : toU128 (ofU128 u) = u := by
  unfold ofU128 toU128
  split <;> omega

lemma i128Range_ofU128 {u : Nat} (h : u < 2 ^ 128) : i128Range (ofU128 u) := by
  unfold ofU128 i128Range
  split <;> omega

lemma xor_two_pow_of_lt {c i : Nat} (h : c < 2 ^ i) : c ^^^ 2 ^ i = c + 2 ^ i := by
  apply Nat.eq_of_testBit_eq
  intro j
  rcases Nat.lt_trichotomy j i with hj | hj | hj
  · rw [Nat.testBit_xor, Nat.testBit_two_pow_of_ne (Nat.ne_of_gt hj),
      Nat.add_comm, Nat.testBit_two_pow_add_gt hj]
    simp
  · subst hj
    rw [Nat.testBit_xor, Nat.testBit_two_pow_self, Nat.add_comm, Nat.testBit_two_pow_add_eq,
      Nat.testBit_lt_two_pow h]
    simp
  · have hij : 2 ^ i ≤ 2 ^ j := Nat.pow_le_pow_right (by norm_num) (le_of_lt hj)
    have hc : c < 2 ^ j := lt_of_lt_of_le h hij
    have hcc : c + 2 ^ i < 2 ^ j := by
      have ha : 2 ^ (i + 1) ≤ 2 ^ j := Nat.pow_le_pow_right (by norm_num) hj
      have hb : 2 ^ (i + 1) = 2 ^ i * 2 := pow_succ 2 i
      omega
    rw [Nat.testBit_xor, Nat.testBit_two_pow_of_ne (Nat.ne_of_lt hj),
      Nat.testBit_lt_two_pow hc, Nat.testBit_lt_two_pow hcc]
    simp

lemma xor_two_pow_of_ge {c i : Nat} (h1 : 2 ^ i ≤ c) (h2 : c < 2 ^ (i + 1)) :
    c ^^^ 2 ^ i = c - 2 ^ i := by
  have hlt : c - 2 ^ i < 2 ^ i := by
    have h3 : 2 ^ (i + 1) = 2 ^ i * 2 := pow_succ 2 i
    omega
  have hx := xor_two_pow_of_lt hlt
  calc c ^^^ 2 ^ i = ((c - 2 ^ i) + 2 ^ i) ^^^ 2 ^ i := by rw [Nat.sub_add_cancel h1]
    _ = ((c - 2 ^ i) ^^^ 2 ^ i) ^^^ 2 ^ i := by rw [hx]
    _ = c - 2 ^ i := Nat.xor_cancel_right _ _

lemma xor_sign_lt {p : Nat} (h : p < 2 ^ 128) : p ^^^ 2 ^ 127 < 2 ^ 128 := by
  rcases Nat.lt_or_ge p (2 ^ 127) with hp | hp
  · rw [xor_two_pow_of_lt hp]; omega
  · rw [xor_two_pow_of_ge hp (by omega)]; omega

/-- On the i128 range, the sign-flip transform's bit pattern is the value
shifted up by 2^127: two's-complement order becomes unsigned order. -/
lemma toU128_lexify {n : Int} (h : i128Range n) : (toU128 (lexify n) : Int) = n + 2 ^ 127 := by
  unfold lexify
  rw [toU128_ofU128 (xor_sign_lt (toU128_lt n))]
  obtain ⟨h1, h2⟩ := h
  have h3 : (0:Int) < 2 ^ 128 := by positivity
  have h4 := Int.emod_nonneg n (ne_of_gt h3)
  have h5 := Int.emod_lt_of_pos n h3
  unfold toU128
  rcases Int.lt_or_le n 0 with hn | hn
  · have h6 : n % 2 ^ 128 = n + 2 ^ 128 := by omega
    have h7 : 2 ^ 127 ≤ (n % 2 ^ 128).toNat := by omega
    have h8 : (n % 2 ^ 128).toNat < 2 ^ (127 + 1) := by omega
    rw [xor_two_pow_of_ge h7 h8]
    omega
  · have h6 : n % 2 ^ 128 = n := by omega
    have h7 : (n % 2 ^ 128).toNat < 2 ^ 127 := by omega
    rw [xor_two_pow_of_lt h7]
    omega

lemma delexify_lexify {n : Int} (h : i128Range n) : delexify (lexify n) = n := by
  unfold delexify lexify
  rw [toU128_ofU128 (xor_sign_lt (toU128_lt n)), Nat.xor_cancel_right, ofU128_toU128 h]

lemma lexify_lt_iff {a b : Int} (ha : i128Range a) (hb : i128Range b) :
    a < b ↔ toU128 (lexify a) < toU128 (lexify b) := by
  have h1 := toU128_lexify ha
  have h2 := toU128_lexify hb
  omega

/-- Big-endian base-B digits of v, written with exactly L digits (v < B ^ L).
Models how a bit stream or byte stream is split most-significant-first. -/
def digitsBE (B : Nat) : Nat → Nat → List Nat
  | 0, _ => []
  | L + 1, v => v / B ^ L :: digitsBE B L (v % B ^ L)

/-- Value of a big-endian digit list in base B. -/
def valueOf (B : Nat) (ds : List Nat) : Nat := ds.foldl (fun acc d => acc * B + d) 0

lemma digitsBE_length (B : Nat) : ∀ L v, (digitsBE B L v).length = L := by
  intro L
  induction L with
  | zero => intro v; rfl
  | succ L ih => intro v; simp [digitsBE, ih]

lemma digitsBE_lt (B : Nat) (hB : 0 < B) :
    ∀ L v, v < B ^ L → ∀ d ∈ digitsBE B L v, d < B := by
  intro L
  induction L with
  | zero => intro v hv d hd; simp [digitsBE] at hd
  | succ L ih =>
    intro v hv d hd
    have hBL : 0 < B ^ L := Nat.pos_pow_of_pos L hB
    rw [digitsBE] at hd
    rcases List.mem_cons.mp hd with hd | hd
    · subst hd
      have h1 : v < B ^ L * B := by rw [← pow_succ]; exact hv
      exact Nat.div_lt_of_lt_mul h1
    · exact ih (v % B ^ L) (Nat.mod_lt v hBL) d hd

lemma foldl_digitsBE (B : Nat) (hB : 0 < B) :
    ∀ L v a, v < B ^ L →
      (digitsBE B L v).foldl (fun acc d => acc * B + d) a = a * B ^ L + v := by
  intro L
  induction L with
  | zero =>
    intro v a hv
    rw [pow_zero] at hv
    simp [digitsBE, pow_zero]
    omega
  | succ L ih =>
    intro v a hv
    have hBL : 0 < B ^ L := Nat.pos_pow_of_pos L hB
    rw [digitsBE]
    simp only [List.foldl_cons]
    rw [ih (v % B ^ L) (a * B + v / B ^ L) (Nat.mod_lt v hBL)]
    have h1 : B ^ L * (v / B ^ L) + v % B ^ L = v := Nat.div_add_mod v (B ^ L)
    have h2 : B ^ (L + 1) = B ^ L * B := pow_succ B L
    calc (a * B + v / B ^ L) * B ^ L + v % B ^ L
        = a * (B ^ L * B) + (B ^ L * (v / B ^ L) + v % B ^ L) := by ring
      _ = a * B ^ (L + 1) + v := by rw [h1, h2]

lemma valueOf_digitsBE (B : Nat) (hB : 0 < B) (L v : Nat) (hv : v < B ^ L) :
    valueOf B (digitsBE B L v) = v := by
  unfold valueOf
  rw [foldl_digitsBE B hB L v 0 hv]
  omega

/-- Strict lexicographic order on digit sequences (a proper prefix is smaller). -/
def lexNatLt : List Nat → List Nat → Bool
  | _, [] => false
  | [], _ :: _ => true
  | x :: xs, y :: ys => decide (x < y) || (decide (x = y) && lexNatLt xs ys)

/-- Strict lexicographic order on character sequences by code point, the
order in which encoded strings compare as plain byte strings. -/
def charLexLt (xs ys : List Char) : Bool := lexNatLt (xs.map Char.toNat) (ys.map Char.toNat)

lemma lt_iff_div_mod (P : Nat) (hP : 0 < P) (v w : Nat) :
    v < w ↔ (v / P < w / P ∨ (v / P = w / P ∧ v % P < w % P)) := by
  have hv := Nat.div_add_mod v P
  have hw := Nat.div_add_mod w P
  have hvP := Nat.mod_lt v hP
  have hwP := Nat.mod_lt w hP
  constructor
  · intro h
    rcases Nat.lt_trichotomy (v / P) (w / P) with h1 | h1 | h1
    · exact Or.inl h1
    · right
      refine ⟨h1, ?_⟩
      rw [← h1] at hw
      omega
    · exfalso
      have h2 := Nat.mul_le_mul_left P (Nat.succ_le_of_lt h1)
      rw [Nat.mul_succ] at h2
      omega
  · intro h
    rcases h with h1 | ⟨h1, h2⟩
    · have h2 := Nat.mul_le_mul_left P (Nat.succ_le_of_lt h1)
      rw [Nat.mul_succ] at h2
      omega
    · rw [← h1] at hw
      omega

lemma lexNatLt_digitsBE (B : Nat) (hB : 0 < B) :
    ∀ L v w, v < B ^ L → w < B ^ L →
      (lexNatLt (digitsBE B L v) (digitsBE B L w) = true ↔ v < w) := by
  intro L
  induction L with
  | zero =>
    intro v w hv hw
    rw [pow_zero] at hv hw
    simp [digitsBE, lexNatLt]
    omega
  | succ L ih =>
    intro v w hv hw
    have hBL : 0 < B ^ L := Nat.pos_pow_of_pos L hB
    rw [digitsBE, digitsBE, lexNatLt]
    simp only [Bool.or_eq_true, Bool.and_eq_true, decide_eq_true_eq]
    rw [ih (v % B ^ L) (w % B ^ L) (Nat.mod_lt v hBL) (Nat.mod_lt w hBL)]
    exact (lt_iff_div_mod (B ^ L) hBL v w).symm

lemma lexNatLt_map {g : Nat → Nat} {B : Nat}
    (hg : ∀ i, i < B → ∀ j, j < B → (i < j ↔ g i < g j)) :
    ∀ xs ys, (∀ x ∈ xs, x < B) → (∀ y ∈ ys, y < B) →
      lexNatLt (xs.map g) (ys.map g) = lexNatLt xs ys := by
  intro xs
  induction xs with
  | nil =>
    intro ys _ _
    cases ys <;> rfl
  | cons x xs ih =>
    intro ys hxs hys
    cases ys with
    | nil => rfl
    | cons y ys =>
      have hx : x < B := hxs x (List.mem_cons_self x xs)
      have hy : y < B := hys y (List.mem_cons_self y ys)
      have hlt : x < y ↔ g x < g y := hg x hx y hy
      have hgt : y < x ↔ g y < g x := hg y hy x hx
      have heq : x = y ↔ g x = g y := by
        constructor
        · intro h; rw [h]
        · intro h; omega
      simp only [List.map_cons, lexNatLt]
      rw [ih ys (fun z hz => hxs z (List.mem_cons_of_mem x hz))
        (fun z hz => hys z (List.mem_cons_of_mem y hz))]
      by_cases h1 : x < y
      · simp [h1, hlt.mp h1]
      · by_cases h2 : x = y
        · simp [h2]
        · have h3 : ¬ g x < g y := fun hc => h1 (hlt.mpr hc)
          have h4 : ¬ g x = g y := fun hc => h2 (heq.mpr hc)
          simp [h1, h2, h3, h4]

/-- Output symbols of the hex crate's lowercase encoding, in encoded-value order. -/
def HEX_SYMBOLS : List Char := "0123456789abcdef".data

/-- Symbols of data_encoding's BASE32HEX alphabet (RFC 4648 base-32-hex). -/
def BASE32HEX_SYMBOLS : List Char := "0123456789ABCDEFGHIJKLMNOPQRSTUV".data

/-- The GEOHASH alphabet defined in src/ser.rs (digits then lowercase letters
skipping a, i, l, o). -/
def GEOHASH_SYMBOLS : List Char := "0123456789bcdefghjkmnpqrstuvwxyz".data

/-- The LEXICAL64 alphabet defined in src/ser.rs (digits, then the equals sign,
then uppercase letters, then the underscore, then lowercase letters). -/
def LEXICAL64_SYMBOLS : List Char :=
  "0123456789=ABCDEFGHIJKLMNOPQRSTUVWXYZ_abcdefghijklmnopqrstuvwxyz".data

/-- Outcome of one of the Visitor::visit_str decoders in src/ser.rs.
A decode failure reported through serde's de::Error is err;
panic marks the slice-index panic in b.copy_from_slice(&bytes[0..16])
when fewer than 16 bytes were decoded. -/
inductive DecodeResult where
  | ok (ms : Int)
  | err
  | panic
deriving DecidableEq

/-- Shared tail of every visit_str in src/ser.rs: copy bytes[0..16] into a
16-byte array (a panic when fewer than 16 bytes are present, and a silent
drop of any bytes past the 16th), then i128::from_be_bytes and delexify. -/
def visitBytes (bytes : List Nat) : DecodeResult :=
  if bytes.length < 16 then .panic
  else .ok (delexify (ofU128 (valueOf 256 (bytes.take 16))))

/-- Value of a hex digit character, as the hex crate accepts it:
0-9, a-f and A-F (case-insensitive input). -/
def hexVal? (c : Char) : Option Nat :=
  if '0' ≤ c ∧ c ≤ '9' then some (c.toNat - 48)
  else if 'a' ≤ c ∧ c ≤ 'f' then some (c.toNat - 87)
  else if 'A' ≤ c ∧ c ≤ 'F' then some (c.toNat - 55)
  else none

/-- hex::decode: consumes characters two at a time into bytes; fails on an
odd-length input and on any character that is not a hex digit. -/
def hexPairs? : List Char → Option (List Nat)
  | [] => some []
  | [_] => none
  | c1 :: c2 :: rest =>
    match hexVal? c1, hexVal? c2, hexPairs? rest with
    | some h, some l, some bs => some ((h * 16 + l) :: bs)
    | _, _, _ => none

/-- Two lowercase hex characters of one byte, as hex::encode emits them. -/
def byteToHex (b : Nat) : List Char := [HEX_SYMBOLS.getD (b / 16) ' ', HEX_SYMBOLS.getD (b % 16) ' ']

/-- Lexical16::serialize from src/ser.rs: hex::encode(lexify(ms).to_be_bytes()). -/
def lexical16_encode (ms : Int) : List Char :=
  (digitsBE 256 16 (toU128 (lexify ms))).flatMap byteToHex

/-- Lexical16Visitor::visit_str from src/ser.rs: hex::decode, then the shared
bytes[0..16] / from_be_bytes / delexify tail. -/
def lexical16_decode (s : List Char) : DecodeResult :=
  match hexPairs? s with
  | some bytes => visitBytes bytes
  | none => .err

/-- Symbols per full encoding block of a w-bit-per-symbol alphabet in
data_encoding (lcm of 8 and w, counted in symbols). -/
def encBlockSyms (w : Nat) : Nat := Nat.lcm 8 w / w

/-- data_encoding's decode_len length check for an unpadded w-bit alphabet:
the trailing partial block may not contain a symbol that could carry no
output bits. -/
def validDecodeLen (w n : Nat) : Bool := (n % encBlockSyms w) * w % 8 < w

/-- Positions of the input symbols in an alphabet table, data_encoding's
symbol lookup; fails on the first character outside the alphabet. -/
def symIdxs (tbl : List Char) : List Char → Option (List Nat)
  | [] => some []
  | c :: cs =>
    match tbl.findIdx? (fun x => x == c), symIdxs tbl cs with
    | some d, some ds => some (d :: ds)
    | _, _ => none

/-- data_encoding's unpadded decode for a w-bit-per-symbol alphabet: check the
input length, look up every symbol, reassemble the bit stream, require the
trailing bits beyond the last whole byte to be zero (canonical encoding), and
return the recovered bytes. -/
def decBaseW (w : Nat) (tbl : List Char) (s : List Char) : Option (List Nat) :=
  if validDecodeLen w s.length then
    (symIdxs tbl s).bind (fun ds =>
      if valueOf (2 ^ w) ds % 2 ^ (s.length * w - s.length * w / 8 * 8) = 0 then
        some (digitsBE 256 (s.length * w / 8)
          (valueOf (2 ^ w) ds / 2 ^ (s.length * w - s.length * w / 8 * 8)))
      else none)
  else none

/-- data_encoding's unpadded encode of the 16 big-endian bytes of u through a
w-bit-per-symbol alphabet: the 128-bit stream followed by pad zero bits, split
into L symbols of w bits (L and pad are fixed by w since the input is always
exactly 16 bytes). -/
def encBaseW (w L pad : Nat) (tbl : List Char) (u : Nat) : List Char :=
  (digitsBE (2 ^ w) L (u * 2 ^ pad)).map (fun d => tbl.getD d ' ')

/-- Lexical32::serialize from src/ser.rs: BASE32HEX_NOPAD.encode of the
lexified big-endian bytes — 26 symbols of 5 bits, 2 trailing zero bits. -/
def lexical32_encode (ms : Int) : List Char :=
  encBaseW 5 26 2 BASE32HEX_SYMBOLS (toU128 (lexify ms))

/-- Lexical32Visitor::visit_str from src/ser.rs: BASE32HEX_NOPAD decode_len and
decode_mut, then the shared bytes[0..16] tail. -/
def lexical32_decode (s : List Char) : DecodeResult :=
  match decBaseW 5 BASE32HEX_SYMBOLS s with
  | some bytes => visitBytes bytes
  | none => .err

/-- LexicalGeohash::serialize from src/ser.rs: the GEOHASH alphabet's encode of
the lexified big-endian bytes — 26 symbols of 5 bits, 2 trailing zero bits. -/
def lexicalGeohash_encode (ms : Int) : List Char :=
  encBaseW 5 26 2 GEOHASH_SYMBOLS (toU128 (lexify ms))

/-- LexicalGeohashVisitor::visit_str from src/ser.rs. -/
def lexicalGeohash_decode (s : List Char) : DecodeResult :=
  match decBaseW 5 GEOHASH_SYMBOLS s with
  | some bytes => visitBytes bytes
  | none => .err

/-- Lexical64::serialize from src/ser.rs: the LEXICAL64 alphabet's encode of
the lexified big-endian bytes — 22 symbols of 6 bits, 4 trailing zero bits. -/
def lexical64_encode (ms : Int) : List Char :=
  encBaseW 6 22 4 LEXICAL64_SYMBOLS (toU128 (lexify ms))

/-- Lexical64Visitor::visit_str from src/ser.rs. -/
def lexical64_decode (s : List Char) : DecodeResult :=
  match decBaseW 6 LEXICAL64_SYMBOLS s with
  | some bytes => visitBytes bytes
  | none => .err

/-- The four serialization alphabets of src/ser.rs. -/
inductive Alphabet where
  | hex
  | base32hex
  | geohash
  | lexical64
deriving DecidableEq

/-- Encoding a Geotime value ms through one alphabet (the Serialize impls). -/
def encode : Alphabet → Int → List Char
  | .hex => lexical16_encode
  | .base32hex => lexical32_encode
  | .geohash => lexicalGeohash_encode
  | .lexical64 => lexical64_encode

/-- Decoding a string through one alphabet (the visit_str impls). -/
def decode : Alphabet → List Char → DecodeResult
  | .hex => lexical16_decode
  | .base32hex => lexical32_decode
  | .geohash => lexicalGeohash_decode
  | .lexical64 => lexical64_decode

lemma i128Range_lexify (n : Int) : i128Range (lexify n) :=
  i128Range_ofU128 (xor_sign_lt (toU128_lt n))

/-- Looking the d-th symbol of the hex alphabet back up recovers d. -/
lemma hexVal_getD : ∀ d, d < 16 → hexVal? (HEX_SYMBOLS.getD d ' ') = some d := by decide

/-- Looking the d-th symbol of the base-32-hex alphabet back up recovers d. -/
lemma base32hex_lookup : ∀ d, d < 32 →
    BASE32HEX_SYMBOLS.findIdx? (fun x => x == BASE32HEX_SYMBOLS.getD d ' ') = some d := by decide

/-- Looking the d-th symbol of the geohash alphabet back up recovers d. -/
lemma geohash_lookup : ∀ d, d < 32 →
    GEOHASH_SYMBOLS.findIdx? (fun x => x == GEOHASH_SYMBOLS.getD d ' ') = some d := by decide

/-- Looking the d-th symbol of the lexical-64 alphabet back up recovers d. -/
lemma lexical64_lookup : ∀ d, d < 64 →
    LEXICAL64_SYMBOLS.findIdx? (fun x => x == LEXICAL64_SYMBOLS.getD d ' ') = some d := by decide

lemma symIdxs_map {tbl : List Char} {B : Nat}
    (htbl : ∀ d, d < B → tbl.findIdx? (fun x => x == tbl.getD d ' ') = some d) :
    ∀ ds : List Nat, (∀ d ∈ ds, d < B) →
      symIdxs tbl (ds.map (fun d => tbl.getD d ' ')) = some ds := by
  intro ds
  induction ds with
  | nil => intro _; rfl
  | cons d ds ih =>
    intro h
    have hd : d < B := h d (List.mem_cons_self d ds)
    simp only [List.map_cons, symIdxs]
    rw [htbl d hd, ih (fun x hx => h x (List.mem_cons_of_mem d hx))]

/-- Decoding the canonical encoding of any 128-bit pattern u recovers exactly
the 16 big-endian bytes of u, for every w-bit alphabet whose lookup inverts
its symbol table. -/
lemma decBaseW_encBaseW {w L pad : Nat} {tbl : List Char}
    (hlookup : ∀ d, d < 2 ^ w → tbl.findIdx? (fun x => x == tbl.getD d ' ') = some d)
    (hLw : L * w = 128 + pad)
    (hvalid : validDecodeLen w L = true)
    (hout : (128 + pad) / 8 = 16)
    {u : Nat} (hu : u < 2 ^ 128) :
    decBaseW w tbl (encBaseW w L pad tbl u) = some (digitsBE 256 16 u) := by
  have h2w : (0:Nat) < 2 ^ w := Nat.pos_pow_of_pos w (by norm_num)
  have h2pad : (0:Nat) < 2 ^ pad := Nat.pos_pow_of_pos pad (by norm_num)
  have hpow : (2 ^ w) ^ L = 2 ^ 128 * 2 ^ pad := by
    rw [← pow_mul, ← pow_add]
    rw [mul_comm w L, hLw]
  have hv : u * 2 ^ pad < (2 ^ w) ^ L := by
    rw [hpow]
    exact (Nat.mul_lt_mul_right h2pad).mpr hu
  unfold encBaseW decBaseW
  rw [List.length_map, digitsBE_length]
  rw [hvalid]
  simp only [if_true]
  rw [symIdxs_map hlookup _ (digitsBE_lt (2 ^ w) h2w L _ hv)]
  simp only [Option.some_bind]
  rw [valueOf_digitsBE (2 ^ w) h2w L _ hv]
  rw [hLw, hout]
  have htrail : 128 + pad - 16 * 8 = pad := by omega
  rw [htrail]
  rw [Nat.mul_mod_left]
  simp only [if_true]
  rw [Nat.mul_div_cancel u h2pad]

/-- The shared visitor tail on the canonical 16 decoded bytes: reassemble u
and delexify. -/
lemma visitBytes_digits {u : Nat} (hu : u < 2 ^ 128) :
    visitBytes (digitsBE 256 16 u) = .ok (delexify (ofU128 u)) := by
  have h256 : (256:Nat) ^ 16 = 2 ^ 128 := by norm_num
  unfold visitBytes
  rw [digitsBE_length]
  simp only [Nat.lt_irrefl, if_false]
  rw [List.take_of_length_le (by rw [digitsBE_length]),
    valueOf_digitsBE 256 (by norm_num) 16 u (by omega)]

lemma delexify_ofU128 {ms : Int} (h : i128Range ms) :
    delexify (ofU128 (toU128 (lexify ms))) = ms := by
  rw [ofU128_toU128 (i128Range_lexify ms), delexify_lexify h]

lemma lexical32_roundtrip {ms : Int} (h : i128Range ms) :
    lexical32_decode (lexical32_encode ms) = .ok ms := by
  unfold lexical32_decode lexical32_encode
  rw [decBaseW_encBaseW base32hex_lookup (by norm_num) (by decide) (by norm_num)
    (toU128_lt (lexify ms))]
  show visitBytes (digitsBE 256 16 (toU128 (lexify ms))) = DecodeResult.ok ms
  rw [visitBytes_digits (toU128_lt (lexify ms)), delexify_ofU128 h]

lemma lexicalGeohash_roundtrip {ms : Int} (h : i128Range ms) :
    lexicalGeohash_decode (lexicalGeohash_encode ms) = .ok ms := by
  unfold lexicalGeohash_decode lexicalGeohash_encode
  rw [decBaseW_encBaseW geohash_lookup (by norm_num) (by decide) (by norm_num)
    (toU128_lt (lexify ms))]
  show visitBytes (digitsBE 256 16 (toU128 (lexify ms))) = DecodeResult.ok ms
  rw [visitBytes_digits (toU128_lt (lexify ms)), delexify_ofU128 h]

lemma lexical64_roundtrip {ms : Int} (h : i128Range ms) :
    lexical64_decode (lexical64_encode ms) = .ok ms := by
  unfold lexical64_decode lexical64_encode
  rw [decBaseW_encBaseW lexical64_lookup (by norm_num) (by decide) (by norm_num)
    (toU128_lt (lexify ms))]
  show visitBytes (digitsBE 256 16 (toU128 (lexify ms))) = DecodeResult.ok ms
  rw [visitBytes_digits (toU128_lt (lexify ms)), delexify_ofU128 h]

lemma hexPairs_flatMap : ∀ bytes : List Nat, (∀ b ∈ bytes, b < 256) →
    hexPairs? (bytes.flatMap byteToHex) = some bytes := by
  intro bytes
  induction bytes with
  | nil => intro _; rfl
  | cons b bs ih =>
    intro h
    have hb : b < 256 := h b (List.mem_cons_self b bs)
    have h1 : b / 16 < 16 := by omega
    have h2 : b % 16 < 16 := by omega
    simp only [List.flatMap_cons, byteToHex, List.cons_append, List.nil_append]
    simp only [hexPairs?]
    rw [hexVal_getD _ h1, hexVal_getD _ h2, ih (fun x hx => h x (List.mem_cons_of_mem b hx))]
    have h3 : b / 16 * 16 + b % 16 = b := by
      have := Nat.div_add_mod b 16
      omega
    show some ((b / 16 * 16 + b % 16) :: bs) = some (b :: bs)
    rw [h3]

lemma lexical16_roundtrip {ms : Int} (h : i128Range ms) :
    lexical16_decode (lexical16_encode ms) = .ok ms := by
  unfold lexical16_decode lexical16_encode
  have hu := toU128_lt (lexify ms)
  have h256 : (256:Nat) ^ 16 = 2 ^ 128 := by norm_num
  rw [hexPairs_flatMap _ (digitsBE_lt 256 (by norm_num) 16 _ (by omega))]
  show visitBytes (digitsBE 256 16 (toU128 (lexify ms))) = DecodeResult.ok ms
  rw [visitBytes_digits hu, delexify_ofU128 h]

/-- C1: for every 128-bit signed value and each of the four alphabets,
decoding the string produced by encoding yields back exactly that value. -/
theorem decode_encode_roundtrip (A : Alphabet) (ms : Int) (h : i128Range ms) :
    decode A (encode A ms) = .ok ms := by
  cases A
  · exact lexical16_roundtrip h
  · exact lexical32_roundtrip h
  · exact lexicalGeohash_roundtrip h
  · exact lexical64_roundtrip h

/-- Witness for C1 at a concrete input. -/
theorem decode_encode_roundtrip_witness :
    i128Range 1234567 ∧ decode .geohash (encode .geohash 1234567) = .ok 1234567 :=
  ⟨by decide, decode_encode_roundtrip .geohash 1234567 (by decide)⟩

/-- The hex alphabet's character codes are strictly increasing. -/
lemma hex_mono : ∀ i, i < 16 → ∀ j, j < 16 →
    (i < j ↔ (HEX_SYMBOLS.getD i ' ').toNat < (HEX_SYMBOLS.getD j ' ').toNat) := by decide

/-- The base-32-hex alphabet's character codes are strictly increasing. -/
lemma base32hex_mono : ∀ i, i < 32 → ∀ j, j < 32 →
    (i < j ↔ (BASE32HEX_SYMBOLS.getD i ' ').toNat < (BASE32HEX_SYMBOLS.getD j ' ').toNat) := by
  decide

/-- The geohash alphabet's character codes are strictly increasing. -/
lemma geohash_mono : ∀ i, i < 32 → ∀ j, j < 32 →
    (i < j ↔ (GEOHASH_SYMBOLS.getD i ' ').toNat < (GEOHASH_SYMBOLS.getD j ' ').toNat) := by
  decide

/-- The lexical-64 alphabet's character codes are strictly increasing: this is
what the placement of the equals sign and the underscore buys. -/
lemma lexical64_mono : ∀ i, i < 64 → ∀ j, j < 64 →
    (i < j ↔ (LEXICAL64_SYMBOLS.getD i ' ').toNat < (LEXICAL64_SYMBOLS.getD j ' ').toNat) := by
  decide

/-- Fixed-width big-endian digit strings through a strictly increasing symbol
table compare lexicographically exactly as their values compare. -/
lemma charLexLt_map_digitsBE {B L : Nat} {tbl : List Char} (hB : 0 < B)
    (hmono : ∀ i, i < B → ∀ j, j < B →
      (i < j ↔ (tbl.getD i ' ').toNat < (tbl.getD j ' ').toNat))
    {v1 v2 : Nat} (h1 : v1 < B ^ L) (h2 : v2 < B ^ L) :
    (charLexLt ((digitsBE B L v1).map (fun d => tbl.getD d ' '))
               ((digitsBE B L v2).map (fun d => tbl.getD d ' ')) = true ↔ v1 < v2) := by
  unfold charLexLt
  rw [List.map_map, List.map_map]
  have hcomp : (Char.toNat ∘ fun d => tbl.getD d ' ') = fun d => (tbl.getD d ' ').toNat := rfl
  rw [hcomp]
  rw [lexNatLt_map hmono _ _ (digitsBE_lt B hB L v1 h1) (digitsBE_lt B hB L v2 h2)]
  exact lexNatLt_digitsBE B hB L v1 v2 h1 h2

lemma nibble_digits : ∀ n v, v < 256 ^ n →
    (digitsBE 256 n v).flatMap (fun b => [b / 16, b % 16]) = digitsBE 16 (2 * n) v := by
  intro n
  induction n with
  | zero =>
    intro v hv
    rw [pow_zero] at hv
    have hv0 : v = 0 := by omega
    subst hv0
    rfl
  | succ n ih =>
    intro v hv
    have hpos : (0:Nat) < 256 ^ n := Nat.pos_pow_of_pos n (by norm_num)
    have e0 : (16:Nat) ^ (2 * n) = 256 ^ n := by
      rw [pow_mul]
      norm_num
    have e1 : (16:Nat) ^ (2 * n + 1) = 256 ^ n * 16 := by
      rw [pow_succ, e0]
    rw [digitsBE]
    simp only [List.flatMap_cons]
    rw [ih (v % 256 ^ n) (Nat.mod_lt v hpos)]
    have h2 : 2 * (n + 1) = (2 * n + 1) + 1 := by omega
    rw [h2, digitsBE, digitsBE]
    simp only [List.cons_append, List.nil_append]
    congr 1
    · rw [e1, ← Nat.div_div_eq_div_mul]
    congr 1
    · rw [e1, e0, Nat.mod_mul_right_div_self]
    · have e2 : v % 16 ^ (2 * n + 1) % 16 ^ (2 * n) = v % 256 ^ n := by
        rw [Nat.mod_mod_of_dvd, e0]
        rw [e1, e0]
        exact Dvd.intro 16 rfl
      rw [e2]

lemma lexical16_encode_digits (ms : Int) :
    lexical16_encode ms
      = (digitsBE 16 32 (toU128 (lexify ms))).map (fun d => HEX_SYMBOLS.getD d ' ') := by
  unfold lexical16_encode
  have h1 : ∀ l : List Nat,
      l.flatMap byteToHex
        = (l.flatMap (fun b => [b / 16, b % 16])).map (fun d => HEX_SYMBOLS.getD d ' ') := by
    intro l
    induction l with
    | nil => rfl
    | cons b bs ih =>
      simp only [List.flatMap_cons, List.map_append, ih, byteToHex, List.map_cons, List.map_nil]
  have h256 : (256:Nat) ^ 16 = 2 ^ 128 := by norm_num
  rw [h1, nibble_digits 16 (toU128 (lexify ms)) (by rw [h256]; exact toU128_lt _)]

lemma mul_pow_lt_iff {u1 u2 : Nat} (p : Nat) : u1 * 2 ^ p < u2 * 2 ^ p ↔ u1 < u2 :=
  Nat.mul_lt_mul_right (Nat.pos_pow_of_pos p (by norm_num))

/-- C2: under every alphabet, numeric order of the timestamps coincides with
lexicographic character-code order of the encoded strings. -/
theorem encode_order_preserving (A : Alphabet) (a b : Int)
    (ha : i128Range a) (hb : i128Range b) :
    a < b ↔ charLexLt (encode A a) (encode A b) = true := by
  have hu1 := toU128_lt (lexify a)
  have hu2 := toU128_lt (lexify b)
  cases A
  · show a < b ↔ charLexLt (lexical16_encode a) (lexical16_encode b) = true
    rw [lexical16_encode_digits, lexical16_encode_digits]
    have h16 : (16:Nat) ^ 32 = 2 ^ 128 := by norm_num
    have hb1 : toU128 (lexify a) < 16 ^ 32 := by omega
    have hb2 : toU128 (lexify b) < 16 ^ 32 := by omega
    rw [charLexLt_map_digitsBE (by norm_num) hex_mono hb1 hb2]
    exact lexify_lt_iff ha hb
  · show a < b ↔ charLexLt (lexical32_encode a) (lexical32_encode b) = true
    unfold lexical32_encode encBaseW
    rw [show ((2:Nat) ^ 5) = 32 from by norm_num]
    have h32 : (32:Nat) ^ 26 = 2 ^ 128 * 2 ^ 2 := by norm_num
    have hb1 : toU128 (lexify a) * 2 ^ 2 < 32 ^ 26 := by
      rw [h32]; exact (mul_pow_lt_iff 2).mpr hu1
    have hb2 : toU128 (lexify b) * 2 ^ 2 < 32 ^ 26 := by
      rw [h32]; exact (mul_pow_lt_iff 2).mpr hu2
    rw [charLexLt_map_digitsBE (by norm_num) base32hex_mono hb1 hb2]
    rw [mul_pow_lt_iff 2]
    exact lexify_lt_iff ha hb
  · show a < b ↔ charLexLt (lexicalGeohash_encode a) (lexicalGeohash_encode b) = true
    unfold lexicalGeohash_encode encBaseW
    rw [show ((2:Nat) ^ 5) = 32 from by norm_num]
    have h32 : (32:Nat) ^ 26 = 2 ^ 128 * 2 ^ 2 := by norm_num
    have hb1 : toU128 (lexify a) * 2 ^ 2 < 32 ^ 26 := by
      rw [h32]; exact (mul_pow_lt_iff 2).mpr hu1
    have hb2 : toU128 (lexify b) * 2 ^ 2 < 32 ^ 26 := by
      rw [h32]; exact (mul_pow_lt_iff 2).mpr hu2
    rw [charLexLt_map_digitsBE (by norm_num) geohash_mono hb1 hb2]
    rw [mul_pow_lt_iff 2]
    exact lexify_lt_iff ha hb
  · show a < b ↔ charLexLt (lexical64_encode a) (lexical64_encode b) = true
    unfold lexical64_encode encBaseW
    rw [show ((2:Nat) ^ 6) = 64 from by norm_num]
    have h64 : (64:Nat) ^ 22 = 2 ^ 128 * 2 ^ 4 := by norm_num
    have hb1 : toU128 (lexify a) * 2 ^ 4 < 64 ^ 22 := by
      rw [h64]; exact (mul_pow_lt_iff 4).mpr hu1
    have hb2 : toU128 (lexify b) * 2 ^ 4 < 64 ^ 22 := by
      rw [h64]; exact (mul_pow_lt_iff 4).mpr hu2
    rw [charLexLt_map_digitsBE (by norm_num) lexical64_mono hb1 hb2]
    rw [mul_pow_lt_iff 4]
    exact lexify_lt_iff ha hb

/-- Witness for C2 at a concrete pair of inputs. -/
theorem encode_order_preserving_witness :
    ((-3:Int) < 7 ↔ charLexLt (encode .lexical64 (-3)) (encode .lexical64 7) = true) :=
  encode_order_preserving .lexical64 (-3) 7 (by decide) (by decide)

/-- The Geotime value type from src/lib.rs: a tuple struct over an i128
millisecond offset, with equality, hashing and ordering derived structurally
from the single field. -/
structure Geotime where
  ms : Int
deriving DecidableEq

instance : LT Geotime := ⟨fun a b => a.ms < b.ms⟩

instance (a b : Geotime) : Decidable (a < b) := inferInstanceAs (Decidable (a.ms < b.ms))

/-- From i64 for Geotime in src/lib.rs: Self(n.into()), the value-preserving
widening of a 64-bit signed value. -/
def Geotime.fromI64 (n : Int) : Geotime := ⟨n⟩

/-- From i128 for Geotime in src/lib.rs: the identity wrap. -/
def Geotime.fromI128 (n : Int) : Geotime := ⟨n⟩

/-- From i32 for Geotime in src/lib.rs: Self::from(n as i128); the as-cast
widens with sign extension, which preserves the represented integer value. -/
def Geotime.fromI32 (n : Int) : Geotime := Geotime.fromI128 n

/-- Geotime::timestamp_millis from src/lib.rs: Ok(self.0.try_into()?).
i64::try_from succeeds exactly on the i64 range, yielding the stored value;
outside it the TryFromIntError becomes the Error::TryFromInt range error,
modelled as none. -/
def Geotime.timestamp_millis (g : Geotime) : Option Int :=
  if i64Range g.ms then some g.ms else none

/-- C5: timestamp_millis returns the stored value exactly on the i64 range
and a range error exactly outside it, and inverts the i64 constructor. -/
theorem timestamp_millis_narrowing (n ms : Int) :
    (i64Range ms → Geotime.timestamp_millis (Geotime.fromI128 ms) = some ms) ∧
    (¬ i64Range ms → Geotime.timestamp_millis (Geotime.fromI128 ms) = none) ∧
    (i64Range n → Geotime.timestamp_millis (Geotime.fromI64 n) = some n) := by
  refine ⟨fun h => ?_, fun h => ?_, fun h => ?_⟩ <;>
    simp [Geotime.timestamp_millis, Geotime.fromI128, Geotime.fromI64, h]

/-- Witness for C5 at a concrete input. -/
theorem timestamp_millis_narrowing_witness :
    i64Range 42 ∧ Geotime.timestamp_millis (Geotime.fromI64 42) = some 42 :=
  ⟨by decide, (timestamp_millis_narrowing 42 0).2.2 (by decide)⟩

/-- C9: the widening constructors are value-preserving monotone embeddings:
the i32 constructor agrees with the sign-extended i128 constructor, and the
i64 constructor is strictly monotone for the derived ordering. -/
theorem widening_embeddings (n m k : Int) :
    (i32Range n → Geotime.fromI32 n = Geotime.fromI128 n) ∧
    (i64Range m → i64Range k → m < k → Geotime.fromI64 m < Geotime.fromI64 k) := by
  exact ⟨fun _ => rfl, fun _ _ h => h⟩

/-- Witness for C9 at concrete inputs. -/
theorem widening_embeddings_witness :
    i32Range 5 ∧ Geotime.fromI32 5 = Geotime.fromI128 5 ∧
      Geotime.fromI64 (-2) < Geotime.fromI64 3 :=
  ⟨by decide, (widening_embeddings 5 (-2) 3).1 (by decide),
    (widening_embeddings 5 (-2) 3).2 (by decide) (by decide) (by decide)⟩

/-- C6: the sign flip is self-inverse, lands in the unsigned 128-bit range,
and strictly preserves order when its results are compared as u128 values. -/
theorem signflip_selfinverse_order (a b : Int) (ha : i128Range a) (hb : i128Range b) :
    delexify (lexify a) = a ∧ toU128 (lexify a) < 2 ^ 128 ∧
    (a < b → toU128 (lexify a) < toU128 (lexify b)) :=
  ⟨delexify_lexify ha, toU128_lt _, fun h => (lexify_lt_iff ha hb).mp h⟩

/-- Witness for C6 at concrete inputs. -/
theorem signflip_selfinverse_order_witness :
    delexify (lexify (-5)) = -5 ∧ toU128 (lexify (-5)) < 2 ^ 128 ∧
    ((-5:Int) < 3 → toU128 (lexify (-5)) < toU128 (lexify 3)) :=
  signflip_selfinverse_order (-5) 3 (by decide) (by decide)

/-- C3 evidence: an input whose decoded byte length is not 16 is not always a
decode error. Two hex symbols decode to one byte and hit the slice-index
panic in bytes[0..16]; thirty-four hex symbols decode to seventeen bytes,
and the seventeenth byte is silently dropped, yielding Ok; a 24-symbol
base-32-hex input passes the length check, decodes to 15 bytes and panics. -/
theorem wrong_length_panics_or_truncates :
    decode .hex ("7f".data) = .panic ∧
    decode .hex ("8000000000000000000000000000000000".data) = .ok 0 ∧
    decode .base32hex ("G00000000000000000000000".data) = .panic := by decide

/-- C8: the literal encoding fixed points of the spec, under the hex and the
lexical-64 alphabets. -/
theorem literal_fixed_points :
    encode .hex 0 = "80000000000000000000000000000000".data ∧
    encode .hex (-1) = "7fffffffffffffffffffffffffffffff".data ∧
    encode .hex 100 = "80000000000000000000000000000064".data ∧
    encode .lexical64 0 = "V000000000000000000000".data ∧
    encode .lexical64 1 = "V00000000000000000000F".data := by decide

/-- ASCII uppercasing of the six lowercase hex letters, leaving every other
character unchanged. -/
def upperHex (c : Char) : Char :=
  if c = 'a' then 'A' else if c = 'b' then 'B' else if c = 'c' then 'C'
  else if c = 'd' then 'D' else if c = 'e' then 'E' else if c = 'f' then 'F' else c

/-- Letters that can occur in a canonical (lowercase) hex encoding. -/
def isHexLetter (c : Char) : Bool :=
  c == 'a' || c == 'b' || c == 'c' || c == 'd' || c == 'e' || c == 'f'

lemma hexVal_upperHex (c : Char) : hexVal? (upperHex c) = hexVal? c := by
  by_cases h1 : c = 'a'
  · subst h1; decide
  by_cases h2 : c = 'b'
  · subst h2; decide
  by_cases h3 : c = 'c'
  · subst h3; decide
  by_cases h4 : c = 'd'
  · subst h4; decide
  by_cases h5 : c = 'e'
  · subst h5; decide
  by_cases h6 : c = 'f'
  · subst h6; decide
  unfold upperHex
  simp [h1, h2, h3, h4, h5, h6]

lemma hexPairs_map_upperHex : ∀ s : List Char, hexPairs? (s.map upperHex) = hexPairs? s
  | [] => rfl
  | [_] => rfl
  | c1 :: c2 :: rest => by
    simp only [List.map_cons, hexPairs?]
    rw [hexVal_upperHex c1, hexVal_upperHex c2, hexPairs_map_upperHex rest]

lemma map_eq_self_mem {f : Char → Char} :
    ∀ {l : List Char}, l.map f = l → ∀ c ∈ l, f c = c := by
  intro l
  induction l with
  | nil => intro _ c hc; cases hc
  | cons x xs ih =>
    intro h c hc
    simp only [List.map_cons, List.cons.injEq] at h
    rcases List.mem_cons.mp hc with rfl | hc
    · exact h.1
    · exact ih h.2 c hc

lemma upperHex_ne_of_letter {c : Char} (h : isHexLetter c = true) : upperHex c ≠ c := by
  unfold isHexLetter at h
  simp only [Bool.or_eq_true, beq_iff_eq] at h
  rcases h with ((((h | h) | h) | h) | h) | h <;> subst h <;> decide

/-- C10: hex decoding is case-insensitive: uppercasing a canonical encoding
that contains a letter gives a different string that still decodes to the
same value. -/
theorem hex_decode_case_insensitive (ms : Int) (h : i128Range ms)
    (hl : ∃ c ∈ encode .hex ms, isHexLetter c = true) :
    decode .hex ((encode .hex ms).map upperHex) = .ok ms ∧
    (encode .hex ms).map upperHex ≠ encode .hex ms := by
  constructor
  · have hr := lexical16_roundtrip h
    show lexical16_decode ((lexical16_encode ms).map upperHex) = .ok ms
    unfold lexical16_decode at hr ⊢
    rw [hexPairs_map_upperHex]
    exact hr
  · intro heq
    obtain ⟨c, hc, hlet⟩ := hl
    exact (upperHex_ne_of_letter hlet) (map_eq_self_mem heq c hc)

/-- Witness for C10 at a concrete input whose encoding contains a letter. -/
theorem hex_decode_case_insensitive_witness :
    i128Range 10 ∧ (∃ c ∈ encode .hex 10, isHexLetter c = true) ∧
    decode .hex ((encode .hex 10).map upperHex) = .ok 10 ∧
    (encode .hex 10).map upperHex ≠ encode .hex 10 :=
  ⟨by decide, by decide, (hex_decode_case_insensitive 10 (by decide) (by decide)).1,
    (hex_decode_case_insensitive 10 (by decide) (by decide)).2⟩

/-- A calendar instant: whole seconds since the epoch and a sub-second
component in nanoseconds. Modelled from the spec: the UTC instant abstraction
of the calendar collaborator (chrono's NaiveDateTime), which represents
pre-epoch instants with floored seconds and a non-negative sub-second part. -/
structure Instant where
  secs : Int
  nsecs : Nat
deriving DecidableEq

/-- Modelled from the spec: the calendar collaborator's fallible construction
from whole seconds plus sub-second nanoseconds (NaiveDateTime's
from_timestamp_opt). It rejects a sub-second component of two billion
nanoseconds or more and a seconds count outside the collaborator's own
representable range; that range bound is approximate here (chrono's is about
262000 years), and no claim is settled near it. -/
def from_timestamp_opt (secs : Int) (nsecs : Nat) : Option Instant :=
  if nsecs < 2000000000 ∧ -8000000000000 ≤ secs ∧ secs ≤ 8000000000000 then
    some ⟨secs, nsecs⟩
  else none

/-- Millisecond-since-epoch projection of an instant (chrono's
timestamp_millis), modelled from the spec: seconds scaled to milliseconds
plus the whole milliseconds of the sub-second component. -/
def Instant.millis (t : Instant) : Int := t.secs * 1000 + (t.nsecs / 1000000 : Nat)

/-- From a DateTime reference for Geotime in src/lib.rs: the instant's
millisecond projection widened into a Geotime. -/
def from_instant (t : Instant) : Geotime := Geotime.fromI64 t.millis

/-- An as-u32 cast of a signed value: two's-complement wrap into the
unsigned 32-bit range. -/
def toU32 (n : Int) : Nat := (n % (2:Int) ^ 32).toNat

/-- TryFrom of Geotime for DateTime in src/lib.rs: narrow to i64 millis, then
(secs, nsecs) = (n / 1000, ((n % 1000) * 1000) as u32) with Rust's truncating
division and sign-following remainder, then the collaborator's fallible
constructor on that pair. -/
def to_instant (g : Geotime) : Option Instant :=
  match Geotime.timestamp_millis g with
  | none => none
  | some n => from_timestamp_opt (n.tdiv 1000) (toU32 (n.tmod 1000 * 1000))

/-- C4 evidence: the code splits the millisecond count with truncating
division, multiplies the remainder by 1000 (microseconds, not nanoseconds)
and wraps it as u32. The instant one millisecond after the epoch round-trips
to the instant one microsecond after the epoch (zero at millisecond
precision), and one millisecond before the epoch fails to convert at all
because the wrapped sub-second component is about 4.29 billion. -/
theorem to_instant_truncating_not_floor :
    from_instant ⟨0, 1000000⟩ = Geotime.fromI64 1 ∧
    to_instant (Geotime.fromI64 1) = some ⟨0, 1000⟩ ∧
    Instant.millis ⟨0, 1000⟩ = 0 ∧
    toU32 ((-1 : Int).tmod 1000 * 1000) = 4294966296 ∧
    to_instant (Geotime.fromI64 (-1)) = none := by decide
